import Mathlib

/-!
Verification of the minimal Ethereum-style node core: the RLP codec
(encoder in `rlp/encode.go`, streaming decoder in `rlp/rlp.go`), the
header store (modelled from the spec, the Go implementation is only
exercised by its tests), and the syncer's peer selection and peer
onboarding logic (`syncer/syncer.go`).

Machine bytes are modelled as `Nat` with explicit `% 256` where the Go
code truncates with `byte(...)`; `uint` / `uint64` arithmetic that
cannot overflow in the modelled paths is `Nat`.  Go runtime panics
(out-of-range slice indexing, `panic(err)`) are modelled as explicit
outcomes distinct from returned errors.
-/

namespace RLP

/-- Errors returned by the decoder (`io.EOF`, `ErrSize`, and the
various `fmt.Errorf` failures of `rlp.go`). -/
inductive Err where
  | eof               -- io.EOF, the UNEXPECTED_END error
  | errSize           -- ErrSize, "rlp: non-canonical size information"
  | typeMismatch      -- typeErr(expected, found)
  | listNotExpected   -- "list not expected" in Bytes
  | uintOverflow      -- "uint overflow" in uint
  | leadingZeroBytes  -- "leading zero bytes" in BigInt
  | notInsideList     -- "it was not inside a list" in EndList
  | badListEnd        -- "bad ending of the list" in EndList
  deriving DecidableEq

/-- The `Kind` enumeration of `rlp.go`. -/
inductive Kind where
  | byte
  | bytes
  | list
  deriving DecidableEq

/-- The decoder state: the fields `data`, `pos`, the kind cache
(`r.kind`/`r.size`, with `none` standing for the zero `Kind`), and the
stack `r.lists` of list end positions.  The Go field `r.len` is always
`uint(len(data))`, so it is not duplicated here. -/
structure St where
  data : List Nat
  pos : Nat
  kindCache : Option (Kind × Nat)
  lists : List Nat
  deriving DecidableEq

/-- Outcome of a decoder operation: a value together with the updated
state, a returned error, or a Go runtime panic caused by indexing or
slicing `r.data` out of range. -/
inductive Res (α : Type) where
  | ok (v : α) (s : St)
  | err (e : Err)
  | oob
  deriving DecidableEq

/-- `NewRLP`. -/
def newRLP (data : List Nat) : St :=
  { data := data, pos := 0, kindCache := none, lists := [] }

/-- The effective end used by `checkBounds`: `r.len`, or `r.lists[0]`
when the list stack is not empty. -/
def effEnd (s : St) : Nat :=
  match s.lists with
  | [] => s.data.length
  | e :: _ => e

/-- `checkBounds(size)`: errors iff `size > end`. -/
def checkBoundsFails (s : St) (size : Nat) : Bool :=
  decide (size > effEnd s)

/-- The slice `l[start : start+size]`. -/
def extract (l : List Nat) (start size : Nat) : List Nat :=
  (l.drop start).take size

/-- Big-endian value of a byte string; `binary.BigEndian.Uint64` of the
zero-padded buffer computes exactly this on the copied bytes. -/
def beVal (l : List Nat) : Nat :=
  l.foldl (fun a b => a * 256 + b) 0

/-- `readByte`: bounds check with `checkBounds(r.pos)` (note: not
`r.pos + 1`), then the access `r.data[r.pos]`, which is out of range
whenever `r.pos ≥ len(data)`. -/
def readByte (s : St) : Res Nat :=
  if checkBoundsFails s s.pos then .err .eof
  else
    match s.data.get? s.pos with
    | some b => .ok b { s with pos := s.pos + 1 }
    | none => .oob

/-- `readUint(size)`: 0 and 1 byte cases, and the general case which
zeroes `uintbuf`, checks bounds, then copies `r.data[pos:pos+size]`.
`r.uintbuf[start:]` with `start = 8 - size` negative (size > 8) is a
runtime panic, as is the slice of `r.data` beyond `len(data)`. -/
def readUint (s : St) (size : Nat) : Res Nat :=
  match size with
  | 0 => .ok 0 s
  | 1 => readByte s
  | _ =>
    if checkBoundsFails s (s.pos + size) then .err .eof
    else if size > 8 then .oob
    else if s.pos + size ≤ s.data.length then
      .ok (beVal (extract s.data s.pos size)) { s with pos := s.pos + size }
    else .oob

/-- `readKind`.  In the long byte-string case (`cur < 0xC0`) the Go
code computes `err = ErrSize` when the size is short, and also receives
any error from `readUint`, but the `return` statement passes a literal
`nil` error, so both are discarded; in the long list case the error is
returned. -/
def readKind (s : St) : Res (Kind × Nat) :=
  match readByte s with
  | .oob => .oob
  | .err e => .err e
  | .ok cur s1 =>
    if cur < 0x80 then .ok (.byte, cur) s1
    else if cur < 0xB8 then .ok (.bytes, cur - 0x80) s1
    else if cur < 0xC0 then
      match readUint s1 (cur - 0xB7) with
      | .oob => .oob
      | .err _ => .ok (.bytes, 0) s1
      | .ok size s2 => .ok (.bytes, size) s2
    else if cur < 0xF8 then .ok (.list, cur - 0xC0) s1
    else
      match readUint s1 (cur - 0xF7) with
      | .oob => .oob
      | .err e => .err e
      | .ok size s2 =>
        if size < 56 then .err .errSize else .ok (.list, size) s2

/-- `Kind()`: the cached kind if set, else `readKind`, caching the
result only on success. -/
def kindF (s : St) : Res (Kind × Nat) :=
  match s.kindCache with
  | some (k, sz) => .ok (k, sz) s
  | none =>
    match readKind s with
    | .oob => .oob
    | .err e => .err e
    | .ok ks s1 => .ok ks { s1 with kindCache := some ks }

/-- `Bytes()`: consumes the next item as a byte string.  The copy from
`r.data[r.pos : r.pos+size]` is a runtime panic when it reaches past
`len(data)` (the bounds check only compares against the enclosing
list end). -/
def bytesF (s : St) : Res (List Nat) :=
  match kindF s with
  | .oob => .oob
  | .err e => .err e
  | .ok (k, size) s1 =>
    match k with
    | .list => .err .listNotExpected
    | .byte => .ok [size] { s1 with kindCache := none }
    | .bytes =>
      if checkBoundsFails s1 (s1.pos + size) then .err .eof
      else if s1.pos + size ≤ s1.data.length then
        .ok (extract s1.data s1.pos size)
          { s1 with pos := s1.pos + size, kindCache := none }
      else .oob

/-- `uint(64)`, the body of `Uint()`: reads the bytes, returns `b[0]`
for a single byte, rejects more than `maxbits/8 = 8` bytes, and
otherwise rewinds and re-reads the bytes big-endian with `readUint`.
The code carries a TODO noting the missing canonicality checks. -/
def uintF (s : St) : Res Nat :=
  match bytesF s with
  | .oob => .oob
  | .err e => .err e
  | .ok b s1 =>
    if b.length = 1 then .ok (b.headD 0) s1
    else if b.length > 8 then .err .uintOverflow
    else readUint { s1 with pos := s1.pos - b.length } b.length

/-- `BigInt()`: reads the bytes, rejects a leading zero byte, and
returns the big-endian value (`big.NewInt(1).SetBytes(b)` overwrites
the receiver with the unsigned big-endian value of `b`). -/
def bigIntF (s : St) : Res Int :=
  match bytesF s with
  | .oob => .oob
  | .err e => .err e
  | .ok b s1 =>
    match b with
    | 0 :: _ => .err .leadingZeroBytes
    | _ => .ok (Int.ofNat (beVal b)) s1

/-- `List()`: requires a list kind, resets the cache, and pushes
`r.pos + size` on the front of `r.lists`. -/
def listF (s : St) : Res Nat :=
  match kindF s with
  | .oob => .oob
  | .err e => .err e
  | .ok (k, size) s1 =>
    match k with
    | .list =>
      .ok size { s1 with kindCache := none, lists := (s1.pos + size) :: s1.lists }
    | _ => .err .typeMismatch

/-- `EndList()`: pops the recorded end position, which must equal the
cursor exactly. -/
def endListF (s : St) : Res Unit :=
  match s.lists with
  | [] => .err .notInsideList
  | v :: rest =>
    if v = s.pos then .ok () { s with lists := rest } else .err .badListEnd

end RLP

namespace RLP

/-- `putint`: minimal big-endian bytes of a `uint64`, written exactly
as the 8-way case split of `encode.go` (`byte(i >> 8k)` is
`i / 2^(8k) % 256`). -/
def putint (i : Nat) : List Nat :=
  if i < 256 then [i % 256]
  else if i < 65536 then [i / 256 % 256, i % 256]
  else if i < 16777216 then [i / 65536 % 256, i / 256 % 256, i % 256]
  else if i < 4294967296 then
    [i / 16777216 % 256, i / 65536 % 256, i / 256 % 256, i % 256]
  else if i < 1099511627776 then
    [i / 4294967296 % 256, i / 16777216 % 256, i / 65536 % 256,
     i / 256 % 256, i % 256]
  else if i < 281474976710656 then
    [i / 1099511627776 % 256, i / 4294967296 % 256, i / 16777216 % 256,
     i / 65536 % 256, i / 256 % 256, i % 256]
  else if i < 72057594037927936 then
    [i / 281474976710656 % 256, i / 1099511627776 % 256,
     i / 4294967296 % 256, i / 16777216 % 256, i / 65536 % 256,
     i / 256 % 256, i % 256]
  else
    [i / 72057594037927936 % 256, i / 281474976710656 % 256,
     i / 1099511627776 % 256, i / 4294967296 % 256, i / 16777216 % 256,
     i / 65536 % 256, i / 256 % 256, i % 256]

/-- `putUint32` (despite its name it handles the full `uint` range):
`putint` into an 8-byte buffer, truncated to the written length. -/
def putUint32 (n : Nat) : List Nat :=
  putint n

/-- `encodeItem`: byte-string encoding; a single byte `≤ 0x7f` is its
own encoding, otherwise a short or long header precedes the bytes. -/
def encodeItem (b : List Nat) : List Nat :=
  if b.length = 1 ∧ b.headD 0 ≤ 0x7f then b
  else if b.length < 56 then (0x80 + b.length) :: b
  else
    let ss := putUint32 b.length
    (0xB7 + ss.length) :: (ss ++ b)

/-- `encodeUint`: zero maps to the single byte `0x80`, otherwise the
byte-string encoding of the minimal big-endian bytes. -/
def encodeUint (i : Nat) : List Nat :=
  if i = 0 then [0x80] else encodeItem (putUint32 i)

/-- Minimal big-endian byte representation of a natural number, empty
for zero; this is what `big.Int.Bytes()` returns for a non-negative
`big.Int`. -/
def toBE (i : Nat) : List Nat :=
  if h : i = 0 then []
  else toBE (i / 256) ++ [i % 256]
decreasing_by
  exact Nat.div_lt_self (Nat.pos_of_ne_zero h) (by norm_num)

/-- The value universe of the codec: unsigned integers,
arbitrary-precision integers, byte strings, strings, and lists. -/
inductive Value where
  | uint (i : Nat)
  | bigInt (i : Int)
  | bytes (b : List Nat)
  | str (s : List Nat)
  | list (vs : List Value)

/-- Outcome of the encoder: the produced bytes, the returned error
(the only returned error in the modelled universe is the
"cannot encode negative *big.Int" INVALID_VALUE error), or a Go
runtime panic (`panic(err)` inside `encodeList`). -/
inductive EncRes where
  | ok (bs : List Nat)
  | err
  | panicked
  deriving DecidableEq

mutual

/-- `encode` (dispatch of `EncodeToRLP`) on the recognized universe:
uints via `encodeUint`, `*big.Int` via `encodeBigInt` (negative values
error, otherwise `encodeItem` of `i.Bytes()`), byte slices and strings
via `encodeItem`, and slices/structs via `encodeList`. -/
def encodeVal : Value → EncRes
  | .uint i => .ok (encodeUint i)
  | .bigInt i => if i < 0 then .err else .ok (encodeItem (toBE i.toNat))
  | .bytes b => .ok (encodeItem b)
  | .str s => .ok (encodeItem s)
  | .list [] => .ok [0xC0]
  | .list (v :: vs) =>
    match encodeChildren (v :: vs) with
    | .ok data =>
      if data.length < 56 then .ok ((0xC0 + data.length) :: data)
      else
        let ss := putUint32 data.length
        .ok ((0xF7 + ss.length) :: (ss ++ data))
    | .err => .err
    | .panicked => .panicked

/-- The child loop of `encodeList`: concatenates the encodings; on a
child error the Go code calls `panic(err)` instead of returning it. -/
def encodeChildren : List Value → EncRes
  | [] => .ok []
  | v :: rest =>
    match encodeVal v with
    | .ok e =>
      match encodeChildren rest with
      | .ok es => .ok (e ++ es)
      | .err => .err
      | .panicked => .panicked
    | .err => .panicked
    | .panicked => .panicked

end

mutual

/-- Drives the streaming reader by the shape of an expected value,
exactly as `validateDecoding` in the RLP test harness does: `Uint` for
uints, `BigInt` for big integers, `Bytes`/`String` for byte strings
and strings, and `List` / children / `EndList` for lists. -/
def readAs (s : St) : Value → Res Value
  | .uint _ =>
    match uintF s with
    | .ok i s1 => .ok (.uint i) s1
    | .err e => .err e
    | .oob => .oob
  | .bigInt _ =>
    match bigIntF s with
    | .ok i s1 => .ok (.bigInt i) s1
    | .err e => .err e
    | .oob => .oob
  | .bytes _ =>
    match bytesF s with
    | .ok b s1 => .ok (.bytes b) s1
    | .err e => .err e
    | .oob => .oob
  | .str _ =>
    match bytesF s with
    | .ok b s1 => .ok (.str b) s1
    | .err e => .err e
    | .oob => .oob
  | .list vs =>
    match listF s with
    | .err e => .err e
    | .oob => .oob
    | .ok _ s1 =>
      match readAsList s1 vs with
      | .err e => .err e
      | .oob => .oob
      | .ok ws s2 =>
        match endListF s2 with
        | .ok _ s3 => .ok (.list ws) s3
        | .err e => .err e
        | .oob => .oob

/-- Reads the children of a list in order, by shape. -/
def readAsList (s : St) : List Value → Res (List Value)
  | [] => .ok [] s
  | v :: rest =>
    match readAs s v with
    | .err e => .err e
    | .oob => .oob
    | .ok w s1 =>
      match readAsList s1 rest with
      | .err e => .err e
      | .oob => .oob
      | .ok ws s2 => .ok (w :: ws) s2

end

mutual

/-- Well-formedness of a value: bytes are bytes, and all lengths fit
in a Go `uint`, as they do for any value materialized in Go. -/
def wfV : Value → Prop
  | .uint i => i < 2 ^ 64
  | .bigInt i => 0 ≤ i ∧ (toBE i.toNat).length < 2 ^ 64
  | .bytes b => (∀ x ∈ b, x < 256) ∧ b.length < 2 ^ 64
  | .str s => (∀ x ∈ s, x < 256) ∧ s.length < 2 ^ 64
  | .list vs =>
    wfL vs ∧ ∀ ds, encodeChildren vs = .ok ds → ds.length < 2 ^ 64

/-- Well-formedness of a list of values. -/
def wfL : List Value → Prop
  | [] => True
  | v :: rest => wfV v ∧ wfL rest

end

end RLP
namespace Syncer

/-- The scheduling-relevant fields of `syncer.Peer`: `active`,
`failed`, `pending`.  The connection fields play no role in peer
selection and are omitted. -/
structure Peer where
  active : Bool
  failed : Int
  pending : Int
  deriving DecidableEq

/-- `peers.Less` of `syncer.go`: returns true when the first peer has
strictly fewer failures, otherwise falls back to comparing pending
counts even when the first peer has strictly more failures. -/
def peersLess (a b : Peer) : Bool :=
  if a.failed < b.failed then true else decide (a.pending < b.pending)

/-- One leftward bubbling step of the insertion sort used by
`sort.Sort` on short slices, on a reversed prefix: the new element
swaps with its left neighbour while `Less(new, neighbour)`. -/
def goInsertRev (x : Peer) : List Peer → List Peer
  | [] => [x]
  | p :: rest =>
    if peersLess x p then p :: goInsertRev x rest else x :: p :: rest

/-- The insertion sort `sort.Sort` performs on a short slice (the
candidate list in `dequeuePeer` is at most the number of connected
peers): elements are processed left to right, each one bubbling
leftward through the already sorted prefix (kept reversed here). -/
def goSortAux (acc : List Peer) : List Peer → List Peer
  | [] => acc.reverse
  | x :: rest => goSortAux (goInsertRev x acc) rest

/-- `sort.Sort(pp)` for the candidate slice. -/
def goSort (l : List Peer) : List Peer :=
  goSortAux [] l

/-- The selection step of `Syncer.dequeuePeer`: filter the peers to
`active && pending <= MaxRequests-1`, sort with `peers.Less`, and take
the first element; `none` models the branch that parks the worker. -/
def dequeuePeerSelect (maxRequests : Int) (ps : List Peer) : Option Peer :=
  (goSort (ps.filter
    (fun p => p.active && decide (p.pending ≤ maxRequests - 1)))).head?

/-- Ascending lexicographic order on (failure_count, pending_count),
as the spec's peer-selection sentence orders candidates. -/
def lexLess (a b : Peer) : Bool :=
  decide (a.failed < b.failed) ||
    (decide (a.failed = b.failed) && decide (a.pending < b.pending))

/-- `Syncer.updateChain`: the back of the download queue advances to
`block` when absent or strictly smaller; the back's height is the only
modelled component. -/
def updateChain (block : Nat) (back : Option Nat) : Option Nat :=
  match back with
  | none => some block
  | some b => if block > b then some block else back

/-- The difficulty comparison and target update of `Syncer.AddNode`
after the height fetch succeeds: the code compares
`peer.HeaderDiff()` against the local head's difficulty, but only
prints "skip it" on the lower-difficulty branch and falls through, so
`updateChain` runs unconditionally. -/
def addNodeAdvance (peerTD localHeadDiff : Int) (tipHeight : Nat)
    (back : Option Nat) : Option Nat :=
  let _skipOnlyLogged := decide (peerTD < localHeadDiff)
  updateChain tipHeight back

end Syncer

namespace Blockchain

/-- Modelled from the spec: the header record of the Header Store
(src/ only contains the store's tests, not its implementation).
Hashes are the byte shorthands the spec's scenarios use. -/
structure SHeader where
  hash : Nat
  parent : Nat
  number : Nat
  diff : Nat
  deriving DecidableEq

/-- Modelled from the spec: the Header Store state — all stored
headers, their total difficulties, the canonical head hash, and the
fork tip set. -/
structure Store where
  headers : List SHeader
  tds : List (Nat × Nat)
  head : Nat
  forks : List Nat
  deriving DecidableEq

/-- Header lookup by hash. -/
def lookupH (s : Store) (h : Nat) : Option SHeader :=
  s.headers.find? (fun x => x.hash = h)

/-- Total difficulty recorded for a hash (0 when absent). -/
def tdOf (s : Store) (h : Nat) : Nat :=
  match s.tds.find? (fun x => x.1 = h) with
  | some x => x.2
  | none => 0

/-- Modelled from the spec: whether `a` is a proper ancestor of `b`,
walking parent references; the fuel bounds the walk by the store
size. -/
def isAncestorFuel (s : Store) (a : Nat) : Nat → Nat → Bool
  | 0, _ => false
  | fuel + 1, b =>
    match lookupH s b with
    | none => false
    | some hb =>
      if hb.number = 0 then false
      else if hb.parent = a then true
      else isAncestorFuel s a fuel hb.parent

/-- Modelled from the spec: ancestry with fuel set to the store
size. -/
def isAncestor (s : Store) (a b : Nat) : Bool :=
  isAncestorFuel s a s.headers.length b

/-- Modelled from the spec: `write_genesis(h)` — fails with
ALREADY_INITIALIZED when any header is present, else sets `h` as the
sole header and head with `total-difficulty(h) = difficulty(h)`. -/
def writeGenesis (h : SHeader) (st : Option Store) : Option Store :=
  match st with
  | some s => some s
  | none => some { headers := [h], tds := [(h.hash, h.diff)], head := h.hash, forks := [] }

/-- Modelled from the spec: the fork-set update of the reorg procedure
when adopting new head `n` over previous head `p`: `p` joins the fork
set unless it is an ancestor of another fork tip, and fork tips that
are ancestors of `n` are removed. -/
def reorgForks (s : Store) (p n : Nat) : List Nat :=
  let withPrev :=
    if s.forks.any (fun f => isAncestor s p f) then s.forks else p :: s.forks
  withPrev.filter (fun f => !(isAncestor s f n))

/-- Modelled from the spec: the fork-set maintenance for a non-head
write — a header whose parent is a fork tip replaces that tip,
otherwise it opens a new fork tip. -/
def forkWriteForks (forks : List Nat) (h : SHeader) : List Nat :=
  if h.parent ∈ forks then
    forks.map (fun f => if f = h.parent then h.hash else f)
  else forks ++ [h.hash]

/-- Modelled from the spec: `write_header(h)` on an initialized store.
Preconditions (parent present, not a duplicate) are checked before any
mutation, and a failing write returns the store untouched.  The total
difficulty is the parent's plus `h`'s difficulty; the head moves only
when the new total difficulty is strictly greater, in which case the
reorg fork maintenance runs; otherwise `h` extends or opens a fork. -/
def writeHeader (h : SHeader) (s : Store) : Store :=
  if (lookupH s h.hash).isSome then s
  else if (lookupH s h.parent).isNone then s
  else if tdOf s h.parent + h.diff > tdOf s s.head then
    { headers := h :: s.headers,
      tds := (h.hash, tdOf s h.parent + h.diff) :: s.tds,
      head := h.hash,
      forks := reorgForks
        { headers := h :: s.headers,
          tds := (h.hash, tdOf s h.parent + h.diff) :: s.tds,
          head := s.head, forks := s.forks } s.head h.hash }
  else
    { headers := h :: s.headers,
      tds := (h.hash, tdOf s h.parent + h.diff) :: s.tds,
      head := s.head, forks := forkWriteForks s.forks h }

/-- A store operation: genesis write or header write. -/
inductive Op where
  | genesis (h : SHeader)
  | header (h : SHeader)
  deriving DecidableEq

/-- Modelled from the spec: apply one operation; `write_header` fails
with GENESIS_MISSING (leaving the state untouched) when the store is
uninitialized. -/
def applyOp (st : Option Store) : Op → Option Store
  | .genesis h => writeGenesis h st
  | .header h =>
    match st with
    | none => none
    | some s => some (writeHeader h s)

/-- Apply a sequence of operations to the empty store. -/
def applyOps (ops : List Op) : Option Store :=
  ops.foldl applyOp none

end Blockchain


namespace RLP

theorem beVal_nil : beVal [] = 0 := rfl

theorem beVal_singleton (b : Nat) : beVal [b] = b := by
  simp [beVal]

theorem beVal_append (l : List Nat) (d : Nat) :
    beVal (l ++ [d]) = beVal l * 256 + d := by
  simp [beVal, List.foldl_append]

theorem beVal_lt (l : List Nat) (hb : ∀ x ∈ l, x < 256) :
    beVal l < 256 ^ l.length := by
  induction l using List.reverseRecOn with
  | nil => simp [beVal]
  | append_singleton l d ih =>
    have hd : d < 256 := hb d (by simp)
    have hl : beVal l < 256 ^ l.length := ih (fun x hx => hb x (by simp [hx]))
    have h2 : (beVal l + 1) * 256 ≤ 256 ^ l.length * 256 :=
      Nat.mul_le_mul_right 256 hl
    rw [beVal_append]
    simp only [List.length_append, List.length_singleton, pow_succ]
    omega

theorem toBE_eq (i : Nat) :
    toBE i = if i = 0 then [] else toBE (i / 256) ++ [i % 256] := by
  rw [toBE]
  split <;> simp_all

theorem toBE_zero : toBE 0 = [] := by
  simp [toBE_eq]

theorem toBE_ne {i : Nat} (h : i ≠ 0) :
    toBE i = toBE (i / 256) ++ [i % 256] := by
  rw [toBE_eq, if_neg h]

theorem toBE_of_lt {i : Nat} (h1 : 0 < i) (h2 : i < 256) : toBE i = [i] := by
  rw [toBE_ne (by omega), Nat.div_eq_of_lt h2, toBE_zero,
    Nat.mod_eq_of_lt h2]
  rfl

theorem toBE_beVal : ∀ i : Nat, beVal (toBE i) = i := by
  intro i
  induction i using Nat.strong_induction_on with
  | _ i ih =>
    by_cases h : i = 0
    · simp [h, toBE_zero, beVal_nil]
    · rw [toBE_ne h, beVal_append,
        ih (i / 256) (Nat.div_lt_self (by omega) (by omega))]
      omega

theorem toBE_ne_nil {i : Nat} (h : 0 < i) : toBE i ≠ [] := by
  rw [toBE_ne (by omega)]
  simp

theorem headD_append_of_ne_nil (l m : List Nat) (h : l ≠ []) :
    (l ++ m).headD 0 = l.headD 0 := by
  cases l with
  | nil => exact absurd rfl h
  | cons a t => simp

theorem toBE_headD : ∀ i : Nat, 0 < i → (toBE i).headD 0 ≠ 0 := by
  intro i
  induction i using Nat.strong_induction_on with
  | _ i ih =>
    intro h
    rw [toBE_ne (by omega)]
    by_cases h2 : i < 256
    · rw [Nat.div_eq_of_lt h2, toBE_zero]
      simp
      omega
    · have hq : 0 < i / 256 := Nat.div_pos (by omega) (by omega)
      rw [headD_append_of_ne_nil _ _ (toBE_ne_nil hq)]
      exact ih (i / 256) (Nat.div_lt_self (by omega) (by omega)) hq

theorem toBE_mem_lt : ∀ i : Nat, ∀ x ∈ toBE i, x < 256 := by
  intro i
  induction i using Nat.strong_induction_on with
  | _ i ih =>
    intro x hx
    by_cases h : i = 0
    · rw [h, toBE_zero] at hx
      simp at hx
    · rw [toBE_ne h] at hx
      rcases List.mem_append.1 hx with h1 | h1
      · exact ih (i / 256) (Nat.div_lt_self (by omega) (by omega)) x h1
      · simp at h1
        omega

theorem toBE_length_le : ∀ i k : Nat, i < 256 ^ k → (toBE i).length ≤ k := by
  intro i
  induction i using Nat.strong_induction_on with
  | _ i ih =>
    intro k hk
    by_cases h : i = 0
    · simp [h, toBE_zero]
    · have hkpos : k ≠ 0 := by
        intro h0
        rw [h0, pow_zero] at hk
        omega
      obtain ⟨j, rfl⟩ : ∃ j, k = j + 1 := ⟨k - 1, by omega⟩
      have hq : i / 256 < 256 ^ j := by
        rw [Nat.div_lt_iff_lt_mul (by omega)]
        calc i < 256 ^ (j + 1) := hk
        _ = 256 ^ j * 256 := by rw [pow_succ]
      have := ih (i / 256) (Nat.div_lt_self (by omega) (by omega)) j hq
      rw [toBE_ne h]
      simp
      omega

theorem toBE_length_lower : ∀ i k : Nat, 256 ^ k ≤ i → k < (toBE i).length := by
  intro i
  induction i using Nat.strong_induction_on with
  | _ i ih =>
    intro k hk
    have hi : i ≠ 0 := by
      have : 0 < 256 ^ k := Nat.pos_pow_of_pos k (by omega)
      omega
    rw [toBE_ne hi]
    cases k with
    | zero => simp
    | succ j =>
      have hq : 256 ^ j ≤ i / 256 := by
        rw [Nat.le_div_iff_mul_le (by omega)]
        calc 256 ^ j * 256 = 256 ^ (j + 1) := (pow_succ 256 j).symm
        _ ≤ i := hk
      have := ih (i / 256) (Nat.div_lt_self (by omega) (by omega)) j hq
      simp
      omega

theorem putint_step (i : Nat) (h1 : 256 ≤ i) (h2 : i < 2 ^ 64) :
    putint i = putint (i / 256) ++ [i % 256] := by
  have h64 : i < 18446744073709551616 := by
    calc i < 2 ^ 64 := h2
    _ = 18446744073709551616 := by norm_num
  rcases (by omega :
      i < 65536 ∨ 65536 ≤ i ∧ i < 16777216 ∨
      16777216 ≤ i ∧ i < 4294967296 ∨
      4294967296 ≤ i ∧ i < 1099511627776 ∨
      1099511627776 ≤ i ∧ i < 281474976710656 ∨
      281474976710656 ≤ i ∧ i < 72057594037927936 ∨
      72057594037927936 ≤ i) with hA | hA | hA | hA | hA | hA | hA
  · have e1 : putint i = [i / 256 % 256, i % 256] := by
      unfold putint
      rw [if_neg (by omega), if_pos (by omega)]
    have e2 : putint (i / 256) = [i / 256 % 256] := by
      unfold putint
      rw [if_pos (by omega)]
    rw [e1, e2]
    rfl
  · have e1 : putint i = [i / 65536 % 256, i / 256 % 256, i % 256] := by
      unfold putint
      rw [if_neg (by omega), if_neg (by omega), if_pos (by omega)]
    have e2 : putint (i / 256) = [i / 256 / 256 % 256, i / 256 % 256] := by
      unfold putint
      rw [if_neg (by omega), if_pos (by omega)]
    rw [e1, e2]
    simp only [Nat.div_div_eq_div_mul]
    norm_num
  · have e1 : putint i =
        [i / 16777216 % 256, i / 65536 % 256, i / 256 % 256, i % 256] := by
      unfold putint
      rw [if_neg (by omega), if_neg (by omega), if_neg (by omega),
        if_pos (by omega)]
    have e2 : putint (i / 256) =
        [i / 256 / 65536 % 256, i / 256 / 256 % 256, i / 256 % 256] := by
      unfold putint
      rw [if_neg (by omega), if_neg (by omega), if_pos (by omega)]
    rw [e1, e2]
    simp only [Nat.div_div_eq_div_mul]
    norm_num
  · have e1 : putint i =
        [i / 4294967296 % 256, i / 16777216 % 256, i / 65536 % 256,
         i / 256 % 256, i % 256] := by
      unfold putint
      rw [if_neg (by omega), if_neg (by omega), if_neg (by omega),
        if_neg (by omega), if_pos (by omega)]
    have e2 : putint (i / 256) =
        [i / 256 / 16777216 % 256, i / 256 / 65536 % 256,
         i / 256 / 256 % 256, i / 256 % 256] := by
      unfold putint
      rw [if_neg (by omega), if_neg (by omega), if_neg (by omega),
        if_pos (by omega)]
    rw [e1, e2]
    simp only [Nat.div_div_eq_div_mul]
    norm_num
  · have e1 : putint i =
        [i / 1099511627776 % 256, i / 4294967296 % 256, i / 16777216 % 256,
         i / 65536 % 256, i / 256 % 256, i % 256] := by
      unfold putint
      rw [if_neg (by omega), if_neg (by omega), if_neg (by omega),
        if_neg (by omega), if_neg (by omega), if_pos (by omega)]
    have e2 : putint (i / 256) =
        [i / 256 / 4294967296 % 256, i / 256 / 16777216 % 256,
         i / 256 / 65536 % 256, i / 256 / 256 % 256, i / 256 % 256] := by
      unfold putint
      rw [if_neg (by omega), if_neg (by omega), if_neg (by omega),
        if_neg (by omega), if_pos (by omega)]
    rw [e1, e2]
    simp only [Nat.div_div_eq_div_mul]
    norm_num
  · have e1 : putint i =
        [i / 281474976710656 % 256, i / 1099511627776 % 256,
         i / 4294967296 % 256, i / 16777216 % 256, i / 65536 % 256,
         i / 256 % 256, i % 256] := by
      unfold putint
      rw [if_neg (by omega), if_neg (by omega), if_neg (by omega),
        if_neg (by omega), if_neg (by omega), if_neg (by omega),
        if_pos (by omega)]
    have e2 : putint (i / 256) =
        [i / 256 / 1099511627776 % 256, i / 256 / 4294967296 % 256,
         i / 256 / 16777216 % 256, i / 256 / 65536 % 256,
         i / 256 / 256 % 256, i / 256 % 256] := by
      unfold putint
      rw [if_neg (by omega), if_neg (by omega), if_neg (by omega),
        if_neg (by omega), if_neg (by omega), if_pos (by omega)]
    rw [e1, e2]
    simp only [Nat.div_div_eq_div_mul]
    norm_num
  · have e1 : putint i =
        [i / 72057594037927936 % 256, i / 281474976710656 % 256,
         i / 1099511627776 % 256, i / 4294967296 % 256, i / 16777216 % 256,
         i / 65536 % 256, i / 256 % 256, i % 256] := by
      unfold putint
      rw [if_neg (by omega), if_neg (by omega), if_neg (by omega),
        if_neg (by omega), if_neg (by omega), if_neg (by omega),
        if_neg (by omega)]
    have e2 : putint (i / 256) =
        [i / 256 / 281474976710656 % 256, i / 256 / 1099511627776 % 256,
         i / 256 / 4294967296 % 256, i / 256 / 16777216 % 256,
         i / 256 / 65536 % 256, i / 256 / 256 % 256, i / 256 % 256] := by
      unfold putint
      rw [if_neg (by omega), if_neg (by omega), if_neg (by omega),
        if_neg (by omega), if_neg (by omega), if_neg (by omega),
        if_pos (by omega)]
    rw [e1, e2]
    simp only [Nat.div_div_eq_div_mul]
    norm_num

theorem putint_eq_toBE : ∀ i : Nat, 0 < i → i < 2 ^ 64 → putint i = toBE i := by
  intro i
  induction i using Nat.strong_induction_on with
  | _ i ih =>
    intro h1 h2
    by_cases hs : i < 256
    · unfold putint
      rw [if_pos hs, Nat.mod_eq_of_lt hs, toBE_of_lt h1 hs]
    · rw [putint_step i (by omega) h2, toBE_ne (by omega),
        ih (i / 256) (Nat.div_lt_self (by omega) (by omega)) (by omega)
          (by omega)]

end RLP

namespace RLP

theorem checkBounds_false {s : St} {t : Nat} (h : t ≤ effEnd s) :
    checkBoundsFails s t = false := by
  unfold checkBoundsFails
  simp only [decide_eq_false_iff_not, not_lt]
  omega

theorem get?_at (pre post : List Nat) (c : Nat) :
    (pre ++ c :: post).get? pre.length = some c := by
  rw [List.get?_append_right (Nat.le_refl _), Nat.sub_self]
  rfl

theorem extract_at (pre mid post : List Nat) :
    extract (pre ++ mid ++ post) pre.length mid.length = mid := by
  unfold extract
  rw [List.append_assoc, List.drop_left, List.take_left]

theorem readByte_at (pre post : List Nat) (c : Nat) (kc : Option (Kind × Nat))
    (L : List Nat)
    (hL : pre.length + 1 ≤ effEnd ⟨pre ++ c :: post, pre.length, kc, L⟩) :
    readByte ⟨pre ++ c :: post, pre.length, kc, L⟩ =
      .ok c ⟨pre ++ c :: post, pre.length + 1, kc, L⟩ := by
  simp only [readByte]
  rw [checkBounds_false
    (show pre.length ≤ effEnd ⟨pre ++ c :: post, pre.length, kc, L⟩ by omega)]
  simp only [Bool.false_eq_true, if_false, get?_at]

theorem readUint_at (pre bs post : List Nat) (kc : Option (Kind × Nat))
    (L : List Nat) (h1 : 1 ≤ bs.length) (h8 : bs.length ≤ 8)
    (hL : pre.length + bs.length ≤
      effEnd ⟨pre ++ bs ++ post, pre.length, kc, L⟩) :
    readUint ⟨pre ++ bs ++ post, pre.length, kc, L⟩ bs.length =
      .ok (beVal bs) ⟨pre ++ bs ++ post, pre.length + bs.length, kc, L⟩ := by
  match bs, h1 with
  | [c], _ =>
    have hdata : pre ++ [c] ++ post = pre ++ c :: post := by simp
    have hL2 : pre.length + 1 ≤ effEnd ⟨pre ++ c :: post, pre.length, kc, L⟩ := by
      rw [hdata] at hL
      simpa using hL
    rw [hdata]
    show readByte _ = _
    rw [readByte_at pre post c kc L hL2]
    simp [beVal_singleton]
  | c :: d :: rest, _ =>
    have hlen : (c :: d :: rest).length = rest.length + 2 := by simp
    have hL2 : pre.length + (rest.length + 2) ≤
        effEnd ⟨pre ++ (c :: d :: rest) ++ post, pre.length, kc, L⟩ := by
      rw [hlen] at hL
      exact hL
    have hdl : (pre ++ (c :: d :: rest) ++ post).length =
        pre.length + (rest.length + 2) + post.length := by
      simp
      omega
    show readUint _ (rest.length + 1 + 1) = _
    simp only [readUint]
    rw [checkBounds_false
      (show pre.length + (rest.length + 1 + 1) ≤
        effEnd ⟨pre ++ (c :: d :: rest) ++ post, pre.length, kc, L⟩ by omega)]
    simp only [Bool.false_eq_true, if_false]
    rw [if_neg (by omega), if_pos (by omega)]
    have he : extract (pre ++ (c :: d :: rest) ++ post) pre.length
        (rest.length + 1 + 1) = c :: d :: rest := by
      have h3 := extract_at pre (c :: d :: rest) post
      rw [hlen] at h3
      simpa using h3
    rw [he]
    simp

end RLP

namespace RLP

theorem readByte_at' (s : St) (pre post : List Nat) (c : Nat)
    (hdata : s.data = pre ++ c :: post) (hpos : s.pos = pre.length)
    (hL : pre.length + 1 ≤ effEnd s) :
    readByte s = .ok c { s with pos := pre.length + 1 } := by
  obtain ⟨d, p, kc, L⟩ := s
  simp only at hdata hpos
  subst hdata
  subst hpos
  exact readByte_at pre post c kc L hL

theorem readUint_at' (s : St) (pre bs post : List Nat)
    (hdata : s.data = pre ++ bs ++ post) (hpos : s.pos = pre.length)
    (h1 : 1 ≤ bs.length) (h8 : bs.length ≤ 8)
    (hL : pre.length + bs.length ≤ effEnd s) :
    readUint s bs.length = .ok (beVal bs) { s with pos := pre.length + bs.length } := by
  obtain ⟨d, p, kc, L⟩ := s
  simp only at hdata hpos
  subst hdata
  subst hpos
  exact readUint_at pre bs post kc L h1 h8 hL

theorem kindF_at_byte (s : St) (pre post : List Nat) (c : Nat)
    (hdata : s.data = pre ++ c :: post) (hpos : s.pos = pre.length)
    (hkc : s.kindCache = none) (hc : c < 0x80)
    (hL : pre.length + 1 ≤ effEnd s) :
    kindF s = .ok (.byte, c)
      { s with pos := pre.length + 1, kindCache := some (.byte, c) } := by
  obtain ⟨d, p, kc, L⟩ := s
  simp only at hdata hpos hkc
  subst hdata
  subst hpos
  subst hkc
  simp only [kindF, readKind]
  rw [readByte_at pre post c none L hL]
  simp [hc]

theorem kindF_at_shortBytes (s : St) (pre post : List Nat) (t : Nat)
    (hdata : s.data = pre ++ t :: post) (hpos : s.pos = pre.length)
    (hkc : s.kindCache = none) (h1 : 0x80 ≤ t) (h2 : t < 0xB8)
    (hL : pre.length + 1 ≤ effEnd s) :
    kindF s = .ok (.bytes, t - 0x80)
      { s with pos := pre.length + 1, kindCache := some (.bytes, t - 0x80) } := by
  obtain ⟨d, p, kc, L⟩ := s
  simp only at hdata hpos hkc
  subst hdata
  subst hpos
  subst hkc
  simp only [kindF, readKind]
  rw [readByte_at pre post t none L hL]
  have n1 : ¬ t < 0x80 := by omega
  simp [n1, h2]

theorem kindF_at_longBytes (s : St) (pre ss post : List Nat)
    (hdata : s.data = pre ++ (0xB7 + ss.length) :: (ss ++ post))
    (hpos : s.pos = pre.length) (hkc : s.kindCache = none)
    (h1 : 1 ≤ ss.length) (h8 : ss.length ≤ 8)
    (hL : pre.length + 1 + ss.length ≤ effEnd s) :
    kindF s = .ok (.bytes, beVal ss)
      { s with pos := pre.length + 1 + ss.length,
               kindCache := some (.bytes, beVal ss) } := by
  obtain ⟨d, p, kc, L⟩ := s
  simp only at hdata hpos hkc
  subst hdata
  subst hpos
  subst hkc
  simp only [kindF, readKind]
  rw [readByte_at pre (ss ++ post) (0xB7 + ss.length) none L (by omega)]
  have n1 : ¬ (0xB7 + ss.length) < 0x80 := by omega
  have n2 : ¬ (0xB7 + ss.length) < 0xB8 := by omega
  have n3 : (0xB7 + ss.length) < 0xC0 := by omega
  have hru := readUint_at'
    ⟨pre ++ (0xB7 + ss.length) :: (ss ++ post), pre.length + 1, none, L⟩
    (pre ++ [0xB7 + ss.length]) ss post (by simp) (by simp) h1 h8
    (by simp only [List.length_append, List.length_singleton]; exact hL)
  simp only [List.length_append, List.length_singleton] at hru
  simp [n1, n2, n3, Nat.add_sub_cancel_left, hru]

theorem kindF_at_shortList (s : St) (pre post : List Nat) (t : Nat)
    (hdata : s.data = pre ++ t :: post) (hpos : s.pos = pre.length)
    (hkc : s.kindCache = none) (h1 : 0xC0 ≤ t) (h2 : t < 0xF8)
    (hL : pre.length + 1 ≤ effEnd s) :
    kindF s = .ok (.list, t - 0xC0)
      { s with pos := pre.length + 1, kindCache := some (.list, t - 0xC0) } := by
  obtain ⟨d, p, kc, L⟩ := s
  simp only at hdata hpos hkc
  subst hdata
  subst hpos
  subst hkc
  simp only [kindF, readKind]
  rw [readByte_at pre post t none L hL]
  have n1 : ¬ t < 0x80 := by omega
  have n2 : ¬ t < 0xB8 := by omega
  have n3 : ¬ t < 0xC0 := by omega
  simp [n1, n2, n3, h2]

theorem kindF_at_longList (s : St) (pre ss post : List Nat)
    (hdata : s.data = pre ++ (0xF7 + ss.length) :: (ss ++ post))
    (hpos : s.pos = pre.length) (hkc : s.kindCache = none)
    (h1 : 1 ≤ ss.length) (h8 : ss.length ≤ 8) (h56 : 56 ≤ beVal ss)
    (hL : pre.length + 1 + ss.length ≤ effEnd s) :
    kindF s = .ok (.list, beVal ss)
      { s with pos := pre.length + 1 + ss.length,
               kindCache := some (.list, beVal ss) } := by
  obtain ⟨d, p, kc, L⟩ := s
  simp only at hdata hpos hkc
  subst hdata
  subst hpos
  subst hkc
  simp only [kindF, readKind]
  rw [readByte_at pre (ss ++ post) (0xF7 + ss.length) none L (by omega)]
  have n1 : ¬ (0xF7 + ss.length) < 0x80 := by omega
  have n2 : ¬ (0xF7 + ss.length) < 0xB8 := by omega
  have n3 : ¬ (0xF7 + ss.length) < 0xC0 := by omega
  have n4 : ¬ (0xF7 + ss.length) < 0xF8 := by omega
  have n5 : ¬ beVal ss < 56 := by omega
  have hru := readUint_at'
    ⟨pre ++ (0xF7 + ss.length) :: (ss ++ post), pre.length + 1, none, L⟩
    (pre ++ [0xF7 + ss.length]) ss post (by simp) (by simp) h1 h8
    (by simp only [List.length_append, List.length_singleton]; exact hL)
  simp only [List.length_append, List.length_singleton] at hru
  simp [n1, n2, n3, n4, n5, Nat.add_sub_cancel_left, hru]

end RLP

namespace RLP

theorem effEnd_congr (s s' : St) (h1 : s.lists = s'.lists)
    (h2 : s.data = s'.data) : effEnd s = effEnd s' := by
  unfold effEnd
  rw [h1, h2]

theorem bytesF_bytesBranch (s : St) (P post b : List Nat) (pl n : Nat)
    (hpl : pl = P.length) (hn : n = b.length)
    (hk : kindF s = .ok (.bytes, n) { s with pos := pl, kindCache := some (.bytes, n) })
    (hdata : s.data = P ++ b ++ post)
    (hL : pl + n ≤ effEnd s) :
    bytesF s = .ok b { s with pos := pl + n, kindCache := none } := by
  have hE : effEnd { s with pos := pl, kindCache := some (Kind.bytes, n) } = effEnd s :=
    effEnd_congr _ _ rfl rfl
  have hdl : s.data.length = P.length + b.length + post.length := by
    rw [hdata]
    simp
    omega
  simp only [bytesF, hk]
  rw [checkBounds_false (by rw [hE]; omega)]
  simp only [Bool.false_eq_true, if_false]
  rw [if_pos (by omega)]
  subst hpl
  subst hn
  rw [show (({ s with pos := P.length, kindCache := some (Kind.bytes, b.length) } : St).data)
      = P ++ b ++ post from hdata]
  rw [extract_at]

theorem listF_branch (s : St) (pl m : Nat)
    (hk : kindF s = .ok (.list, m) { s with pos := pl, kindCache := some (.list, m) }) :
    listF s = .ok m
      { s with pos := pl, kindCache := none, lists := (pl + m) :: s.lists } := by
  simp only [listF, hk]

end RLP

namespace RLP

theorem encodeItem_single {c : Nat} (hc : c ≤ 0x7f) : encodeItem [c] = [c] := by
  unfold encodeItem
  rw [if_pos ⟨by simp, by simpa using hc⟩]

theorem encodeItem_short {b : List Nat} (hA : ¬(b.length = 1 ∧ b.headD 0 ≤ 0x7f))
    (hB : b.length < 56) : encodeItem b = (0x80 + b.length) :: b := by
  unfold encodeItem
  rw [if_neg hA, if_pos hB]

theorem encodeItem_long {b : List Nat} (hA : ¬(b.length = 1 ∧ b.headD 0 ≤ 0x7f))
    (hB : ¬ b.length < 56) :
    encodeItem b = (0xB7 + (putUint32 b.length).length) :: (putUint32 b.length ++ b) := by
  unfold encodeItem
  rw [if_neg hA, if_neg hB]

theorem pow64 : (2 : Nat) ^ 64 = 256 ^ 8 := by norm_num

theorem bytesF_at (s : St) (pre post b : List Nat)
    (hdata : s.data = pre ++ encodeItem b ++ post) (hpos : s.pos = pre.length)
    (hkc : s.kindCache = none) (hlen : b.length < 2 ^ 64)
    (hL : pre.length + (encodeItem b).length ≤ effEnd s) :
    bytesF s = .ok b
      { s with pos := pre.length + (encodeItem b).length, kindCache := none } := by
  by_cases hA : b.length = 1 ∧ b.headD 0 ≤ 0x7f
  · obtain ⟨c, rfl⟩ : ∃ c, b = [c] := by
      rcases b with _ | ⟨c, rest⟩
      · simp at hA
      · rcases rest with _ | ⟨d, rest⟩
        · exact ⟨c, rfl⟩
        · simp at hA
    have hc : c ≤ 0x7f := by simpa using hA.2
    have he : encodeItem [c] = [c] := encodeItem_single hc
    rw [he] at hdata hL ⊢
    have hdata2 : s.data = pre ++ c :: post := by
      rw [hdata]
      simp
    have hkb := kindF_at_byte s pre post c hdata2 hpos hkc (by omega)
      (by simpa using hL)
    simp only [bytesF, hkb]
    simp
  · by_cases hB : b.length < 56
    · have he : encodeItem b = (0x80 + b.length) :: b := encodeItem_short hA hB
      rw [he] at hdata hL ⊢
      have hdata2 : s.data = pre ++ (0x80 + b.length) :: (b ++ post) := by
        rw [hdata]
        simp
      have hL1 : pre.length + 1 ≤ effEnd s := by
        simp at hL
        omega
      have hkb := kindF_at_shortBytes s pre (b ++ post) (0x80 + b.length)
        hdata2 hpos hkc (by omega) (by omega) hL1
      have hr := bytesF_bytesBranch s (pre ++ [0x80 + b.length]) post b
        (pre.length + 1) (0x80 + b.length - 0x80)
        (by simp) (by omega) hkb
        (by rw [hdata2]; simp)
        (by simp at hL ⊢; omega)
      rw [hr]
      have hn : (0x80 : Nat) + b.length - 0x80 = b.length := by omega
      rw [hn]
      simp
      omega
    · have he := encodeItem_long hA hB
      have hsb : putUint32 b.length = toBE b.length := by
        unfold putUint32
        exact putint_eq_toBE b.length (by omega) hlen
      have hsb8 : (putUint32 b.length).length ≤ 8 := by
        rw [hsb]
        exact toBE_length_le b.length 8 (by rw [← pow64]; exact hlen)
      have hsb1 : 1 ≤ (putUint32 b.length).length := by
        rw [hsb]
        have := toBE_length_lower b.length 0 (by simpa using (by omega : 1 ≤ b.length))
        omega
      have hbe : beVal (putUint32 b.length) = b.length := by
        rw [hsb]
        exact toBE_beVal b.length
      rw [he] at hdata hL ⊢
      have hdata2 : s.data =
          pre ++ (0xB7 + (putUint32 b.length).length) :: (putUint32 b.length ++ (b ++ post)) := by
        rw [hdata]
        simp
      have hL1 : pre.length + 1 + (putUint32 b.length).length ≤ effEnd s := by
        simp at hL
        omega
      have hkb := kindF_at_longBytes s pre (putUint32 b.length) (b ++ post)
        hdata2 hpos hkc hsb1 hsb8 hL1
      have hr := bytesF_bytesBranch s
        (pre ++ (0xB7 + (putUint32 b.length).length) :: putUint32 b.length) post b
        (pre.length + 1 + (putUint32 b.length).length) (beVal (putUint32 b.length))
        (by simp; omega) (by rw [hbe]) hkb
        (by rw [hdata2]; simp)
        (by rw [hbe]; simp at hL ⊢; omega)
      rw [hr, hbe]
      simp
      omega

theorem listF_at_short (s : St) (pre payload post : List Nat)
    (hdata : s.data = pre ++ (0xC0 + payload.length) :: (payload ++ post))
    (hpos : s.pos = pre.length) (hkc : s.kindCache = none)
    (hm : payload.length < 56)
    (hL : pre.length + 1 ≤ effEnd s) :
    listF s = .ok payload.length
      { s with pos := pre.length + 1, kindCache := none,
               lists := (pre.length + 1 + payload.length) :: s.lists } := by
  have hkb := kindF_at_shortList s pre (payload ++ post) (0xC0 + payload.length)
    hdata hpos hkc (by omega) (by omega) hL
  have hsz : (0xC0 : Nat) + payload.length - 0xC0 = payload.length := by omega
  rw [hsz] at hkb
  exact listF_branch s (pre.length + 1) payload.length hkb

theorem listF_at_long (s : St) (pre payload post : List Nat)
    (hdata : s.data = pre ++ (0xF7 + (putUint32 payload.length).length) ::
      (putUint32 payload.length ++ (payload ++ post)))
    (hpos : s.pos = pre.length) (hkc : s.kindCache = none)
    (hm : 56 ≤ payload.length) (hlen : payload.length < 2 ^ 64)
    (hL : pre.length + 1 + (putUint32 payload.length).length ≤ effEnd s) :
    listF s = .ok payload.length
      { s with pos := pre.length + 1 + (putUint32 payload.length).length,
               kindCache := none,
               lists := (pre.length + 1 + (putUint32 payload.length).length +
                 payload.length) :: s.lists } := by
  have hsb : putUint32 payload.length = toBE payload.length := by
    unfold putUint32
    exact putint_eq_toBE payload.length (by omega) hlen
  have hsb8 : (putUint32 payload.length).length ≤ 8 := by
    rw [hsb]
    exact toBE_length_le payload.length 8 (by rw [← pow64]; exact hlen)
  have hsb1 : 1 ≤ (putUint32 payload.length).length := by
    rw [hsb]
    have := toBE_length_lower payload.length 0
      (by simpa using (by omega : 1 ≤ payload.length))
    omega
  have hbe : beVal (putUint32 payload.length) = payload.length := by
    rw [hsb]
    exact toBE_beVal payload.length
  have hkb := kindF_at_longList s pre (putUint32 payload.length) (payload ++ post)
    hdata hpos hkc hsb1 hsb8 (by omega) hL
  rw [hbe] at hkb
  exact listF_branch s (pre.length + 1 + (putUint32 payload.length).length)
    payload.length hkb

end RLP

namespace RLP

theorem encodeUint_zero : encodeUint 0 = encodeItem [] := by
  unfold encodeUint encodeItem
  simp

theorem encodeUint_ne {i : Nat} (h : i ≠ 0) :
    encodeUint i = encodeItem (putUint32 i) := by
  unfold encodeUint
  rw [if_neg h]

theorem uintF_at (s : St) (pre post : List Nat) (i : Nat)
    (hdata : s.data = pre ++ encodeUint i ++ post) (hpos : s.pos = pre.length)
    (hkc : s.kindCache = none) (hi : i < 2 ^ 64)
    (hL : pre.length + (encodeUint i).length ≤ effEnd s) :
    uintF s = .ok i
      { s with pos := pre.length + (encodeUint i).length, kindCache := none } := by
  by_cases h0 : i = 0
  · subst h0
    rw [encodeUint_zero] at hdata hL ⊢
    have hb := bytesF_at s pre post [] hdata hpos hkc (by norm_num) hL
    simp only [uintF, hb]
    simp [readUint]
  · have hpu : putUint32 i = toBE i := by
      unfold putUint32
      exact putint_eq_toBE i (by omega) hi
    rw [encodeUint_ne h0, hpu] at hdata hL ⊢
    by_cases h1 : i < 256
    · have hb1 : toBE i = [i] := toBE_of_lt (by omega) h1
      rw [hb1] at hdata hL ⊢
      have hb := bytesF_at s pre post [i] hdata hpos hkc (by norm_num) hL
      simp only [uintF, hb]
      simp
    · have hlen2 : 1 < (toBE i).length := toBE_length_lower i 1 (by simpa using h1)
      have hlen8 : (toBE i).length ≤ 8 :=
        toBE_length_le i 8 (by rw [← pow64]; exact hi)
      have he2 : encodeItem (toBE i) = (0x80 + (toBE i).length) :: toBE i := by
        refine encodeItem_short ?_ (by omega)
        intro hc
        omega
      have hb := bytesF_at s pre post (toBE i) hdata hpos hkc (by omega) hL
      simp only [uintF, hb]
      rw [if_neg (by omega), if_neg (by omega)]
      have hE : effEnd { s with pos := pre.length + (encodeItem (toBE i)).length - (toBE i).length, kindCache := none } = effEnd s := effEnd_congr _ _ rfl rfl
      have hru := readUint_at'
        { s with pos := pre.length + (encodeItem (toBE i)).length - (toBE i).length,
                 kindCache := none }
        (pre ++ [0x80 + (toBE i).length]) (toBE i) post
        (by simp only []
            rw [hdata, he2]
            simp)
        (by simp only []
            rw [he2]
            simp
            omega)
        (by omega) (by omega)
        (by rw [hE]
            rw [he2] at hL
            simp at hL ⊢
            omega)
      rw [hru, toBE_beVal]
      simp only []
      rw [he2]
      simp
      omega

theorem bigIntF_at (s : St) (pre post : List Nat) (n : Nat)
    (hdata : s.data = pre ++ encodeItem (toBE n) ++ post) (hpos : s.pos = pre.length)
    (hkc : s.kindCache = none) (hlen : (toBE n).length < 2 ^ 64)
    (hL : pre.length + (encodeItem (toBE n)).length ≤ effEnd s) :
    bigIntF s = .ok (Int.ofNat n)
      { s with pos := pre.length + (encodeItem (toBE n)).length,
               kindCache := none } := by
  have hb := bytesF_at s pre post (toBE n) hdata hpos hkc hlen hL
  simp only [bigIntF, hb]
  by_cases h0 : n = 0
  · subst h0
    simp [toBE_zero, beVal_nil]
  · rcases hbe : toBE n with _ | ⟨x, rest⟩
    · exact absurd hbe (toBE_ne_nil (by omega))
    · rcases x with _ | m
      · have := toBE_headD n (by omega)
        rw [hbe] at this
        simp at this
      · have hv : beVal ((m + 1) :: rest) = n := by
          rw [← hbe]
          exact toBE_beVal n
        simp [hv]

end RLP

namespace RLP

mutual

theorem readAs_enc (v : Value) (e : List Nat) (hw : wfV v)
    (henc : encodeVal v = .ok e) (s : St) (pre post : List Nat)
    (hdata : s.data = pre ++ e ++ post) (hpos : s.pos = pre.length)
    (hkc : s.kindCache = none)
    (hL : pre.length + e.length ≤ effEnd s) :
    readAs s v = .ok v { s with pos := pre.length + e.length, kindCache := none } := by
  cases v with
  | uint i =>
    simp only [encodeVal, EncRes.ok.injEq] at henc
    subst henc
    simp only [wfV] at hw
    have h1 := uintF_at s pre post i hdata hpos hkc hw hL
    simp only [readAs, h1]
  | bigInt i =>
    simp only [wfV] at hw
    simp only [encodeVal] at henc
    rw [if_neg (by omega)] at henc
    simp only [EncRes.ok.injEq] at henc
    subst henc
    have h1 := bigIntF_at s pre post i.toNat hdata hpos hkc hw.2 hL
    simp only [readAs, h1]
    have h2 : Int.ofNat i.toNat = i := Int.toNat_of_nonneg hw.1
    rw [h2]
  | bytes b =>
    simp only [encodeVal, EncRes.ok.injEq] at henc
    subst henc
    simp only [wfV] at hw
    have h1 := bytesF_at s pre post b hdata hpos hkc hw.2 hL
    simp only [readAs, h1]
  | str b =>
    simp only [encodeVal, EncRes.ok.injEq] at henc
    subst henc
    simp only [wfV] at hw
    have h1 := bytesF_at s pre post b hdata hpos hkc hw.2 hL
    simp only [readAs, h1]
  | list vs =>
    simp only [wfV] at hw
    cases vs with
    | nil =>
      simp only [encodeVal, EncRes.ok.injEq] at henc
      subst henc
      have h1 := listF_at_short s pre [] post
        (by rw [hdata]; simp) hpos hkc (by simp) (by simp at hL ⊢; omega)
      simp only [List.length_nil] at h1
      have h2 : readAsList
          { s with pos := pre.length + 1, kindCache := none,
                   lists := (pre.length + 1 + 0) :: s.lists } ([] : List Value) =
          .ok []
            { s with pos := pre.length + 1, kindCache := none,
                     lists := (pre.length + 1 + 0) :: s.lists } := rfl
      have h3 : endListF
          { s with pos := pre.length + 1, kindCache := none,
                   lists := (pre.length + 1 + 0) :: s.lists } =
          .ok ()
            { s with pos := pre.length + 1, kindCache := none,
                     lists := s.lists } := by
        simp [endListF]
      simp only [readAs, h1, h2, h3]
      simp
    | cons v0 vrest =>
      rcases hch : encodeChildren (v0 :: vrest) with ds | _ | _
      rotate_left
      · rw [encodeVal] at henc
        rw [hch] at henc
        simp at henc
      · rw [encodeVal] at henc
        rw [hch] at henc
        simp at henc
      rw [encodeVal] at henc
      rw [hch] at henc
      dsimp only at henc
      have hds64 : ds.length < 2 ^ 64 := hw.2 ds hch
      by_cases hlt : ds.length < 56
      · rw [if_pos hlt] at henc
        simp only [EncRes.ok.injEq] at henc
        subst henc
        have h1 := listF_at_short s pre ds post
          (by rw [hdata]; simp) hpos hkc hlt (by simp at hL ⊢; omega)
        have h2 := readAsList_enc (v0 :: vrest) ds hw.1 hch
          { s with pos := pre.length + 1, kindCache := none,
                   lists := (pre.length + 1 + ds.length) :: s.lists }
          (pre ++ [0xC0 + ds.length]) post
          (by simp only []
              rw [hdata]
              simp)
          (by simp)
          rfl
          (by simp [effEnd])
        have h3 : endListF
            { s with pos := (pre ++ [0xC0 + ds.length]).length + ds.length,
                     kindCache := none,
                     lists := (pre.length + 1 + ds.length) :: s.lists } =
            .ok ()
              { s with pos := (pre ++ [0xC0 + ds.length]).length + ds.length,
                       kindCache := none, lists := s.lists } := by
          simp [endListF]
        simp only [readAs, h1, h2, h3]
        simp
        omega
      · rw [if_neg hlt] at henc
        simp only [EncRes.ok.injEq] at henc
        subst henc
        have h1 := listF_at_long s pre ds post
          (by rw [hdata]; simp) hpos hkc (by omega) hds64
          (by simp at hL ⊢; omega)
        have h2 := readAsList_enc (v0 :: vrest) ds hw.1 hch
          { s with pos := pre.length + 1 + (putUint32 ds.length).length,
                   kindCache := none,
                   lists := (pre.length + 1 + (putUint32 ds.length).length +
                     ds.length) :: s.lists }
          (pre ++ (0xF7 + (putUint32 ds.length).length) :: putUint32 ds.length)
          post
          (by simp only []
              rw [hdata]
              simp)
          (by simp
              omega)
          rfl
          (by simp [effEnd]
              omega)
        have h3 : endListF
            { s with pos := (pre ++ (0xF7 + (putUint32 ds.length).length) :: putUint32 ds.length).length + ds.length,
                     kindCache := none,
                     lists := (pre.length + 1 + (putUint32 ds.length).length + ds.length) :: s.lists } =
            .ok ()
              { s with pos := (pre ++ (0xF7 + (putUint32 ds.length).length) :: putUint32 ds.length).length + ds.length,
                       kindCache := none, lists := s.lists } := by
          simp [endListF]
          omega
        simp only [readAs, h1, h2, h3]
        simp
        omega

theorem readAsList_enc (vs : List Value) (ds : List Nat) (hw : wfL vs)
    (henc : encodeChildren vs = .ok ds) (s : St) (pre post : List Nat)
    (hdata : s.data = pre ++ ds ++ post) (hpos : s.pos = pre.length)
    (hkc : s.kindCache = none)
    (hL : pre.length + ds.length ≤ effEnd s) :
    readAsList s vs =
      .ok vs { s with pos := pre.length + ds.length, kindCache := none } := by
  cases vs with
  | nil =>
    simp only [encodeChildren, EncRes.ok.injEq] at henc
    subst henc
    obtain ⟨d, p, kc, L⟩ := s
    simp only at hdata hpos hkc
    subst hpos
    subst hkc
    simp [readAsList]
  | cons v0 vrest =>
    simp only [wfL] at hw
    rcases he0 : encodeVal v0 with e0 | _ | _
    rotate_left
    · rw [encodeChildren] at henc
      rw [he0] at henc
      simp at henc
    · rw [encodeChildren] at henc
      rw [he0] at henc
      simp at henc
    rcases hrest : encodeChildren vrest with es | _ | _
    rotate_left
    · rw [encodeChildren] at henc
      rw [he0, hrest] at henc
      simp at henc
    · rw [encodeChildren] at henc
      rw [he0, hrest] at henc
      simp at henc
    rw [encodeChildren] at henc
    rw [he0, hrest] at henc
    simp only [EncRes.ok.injEq] at henc
    subst henc
    have h1 := readAs_enc v0 e0 hw.1 he0 s pre (es ++ post)
      (by rw [hdata]; simp) hpos hkc
      (by simp at hL ⊢; omega)
    have h2 := readAsList_enc vrest es hw.2 hrest
      { s with pos := pre.length + e0.length, kindCache := none }
      (pre ++ e0) post
      (by simp only []
          rw [hdata]
          simp)
      (by simp)
      rfl
      (by rw [show effEnd { s with pos := pre.length + e0.length, kindCache := none } = effEnd s from effEnd_congr _ _ rfl rfl]
          simp at hL ⊢
          omega)
    simp only [readAsList, h1, h2]
    simp
    omega

end

end RLP

namespace Blockchain

/-- The store invariant carried through the operations: stored hashes
are distinct, the head is stored, and the head's total difficulty
dominates every stored header's. -/
def Inv (s : Store) : Prop :=
  (s.headers.map SHeader.hash).Nodup ∧
  s.head ∈ s.headers.map SHeader.hash ∧
  ∀ hdr ∈ s.headers, tdOf s hdr.hash ≤ tdOf s s.head

theorem lookupH_none_iff (s : Store) (h : Nat) :
    lookupH s h = none ↔ ∀ x ∈ s.headers, x.hash ≠ h := by
  unfold lookupH
  rw [List.find?_eq_none]
  simp

theorem find?_td_cons_ne (tds : List (Nat × Nat)) (hsh t x : Nat)
    (hne : x ≠ hsh) :
    ((hsh, t) :: tds).find? (fun p => p.1 = x) = tds.find? (fun p => p.1 = x) := by
  rw [List.find?_cons_of_neg]
  simp
  omega

theorem find?_td_cons_eq (tds : List (Nat × Nat)) (hsh t : Nat) :
    ((hsh, t) :: tds).find? (fun p => p.1 = hsh) = some (hsh, t) := by
  rw [List.find?_cons_of_pos]
  simp

theorem tdOf_tds_eq (s s' : Store) (h : s.tds = s'.tds) (x : Nat) :
    tdOf s x = tdOf s' x := by
  unfold tdOf
  rw [h]

theorem tdOf_cons_ne (headers : List SHeader) (tds : List (Nat × Nat))
    (head : Nat) (forks : List Nat) (hsh t x : Nat) (hne : x ≠ hsh) :
    tdOf ⟨headers, (hsh, t) :: tds, head, forks⟩ x =
      tdOf ⟨headers, tds, head, forks⟩ x := by
  unfold tdOf
  simp only []
  rw [find?_td_cons_ne tds hsh t x hne]

theorem tdOf_cons_eq (headers : List SHeader) (tds : List (Nat × Nat))
    (head : Nat) (forks : List Nat) (hsh t : Nat) :
    tdOf ⟨headers, (hsh, t) :: tds, head, forks⟩ hsh = t := by
  unfold tdOf
  simp only []
  rw [find?_td_cons_eq]

theorem mem_forkWriteForks (forks : List Nat) (h : SHeader) :
    h.hash ∈ forkWriteForks forks h := by
  unfold forkWriteForks
  by_cases hp : h.parent ∈ forks
  · rw [if_pos hp]
    exact List.mem_map.2 ⟨h.parent, hp, if_pos rfl⟩
  · rw [if_neg hp]
    simp

theorem inv_writeHeader (hd : SHeader) (s : Store) (hi : Inv s) :
    Inv (writeHeader hd s) := by
  unfold writeHeader
  by_cases hdup : (lookupH s hd.hash).isSome
  · rw [if_pos hdup]
    exact hi
  · rw [if_neg hdup]
    by_cases hpar : (lookupH s hd.parent).isNone
    · rw [if_pos hpar]
      exact hi
    · rw [if_neg hpar]
      have hfresh : ∀ x ∈ s.headers, x.hash ≠ hd.hash :=
        (lookupH_none_iff s hd.hash).1 (Option.not_isSome_iff_eq_none.1 hdup)
      have hnotmem : hd.hash ∉ s.headers.map SHeader.hash := by
        simp only [List.mem_map]
        rintro ⟨x, hx, hxe⟩
        exact hfresh x hx hxe
      have hheadne : s.head ≠ hd.hash := by
        intro hcon
        exact hnotmem (hcon ▸ hi.2.1)
      by_cases hgt : tdOf s hd.parent + hd.diff > tdOf s s.head
      · rw [if_pos hgt]
        refine ⟨?_, ?_, ?_⟩
        · simp only [List.map_cons]
          exact List.Nodup.cons hnotmem hi.1
        · simp
        · intro x hx
          rw [tdOf_cons_eq]
          rcases List.mem_cons.1 hx with hx1 | hx1
          · subst hx1
            rw [tdOf_cons_eq]
          · have hne : x.hash ≠ hd.hash := hfresh x hx1
            rw [tdOf_cons_ne _ _ _ _ _ _ _ hne,
              tdOf_tds_eq ⟨hd :: s.headers, s.tds, hd.hash,
                reorgForks ⟨hd :: s.headers,
                  (hd.hash, tdOf s hd.parent + hd.diff) :: s.tds,
                  s.head, s.forks⟩ s.head hd.hash⟩ s rfl]
            have := hi.2.2 x hx1
            omega
      · rw [if_neg hgt]
        refine ⟨?_, ?_, ?_⟩
        · simp only [List.map_cons]
          exact List.Nodup.cons hnotmem hi.1
        · simp only [List.map_cons]
          exact List.mem_cons_of_mem _ hi.2.1
        · intro x hx
          rw [tdOf_cons_ne _ _ _ _ _ _ s.head hheadne,
            tdOf_tds_eq ⟨hd :: s.headers, s.tds, s.head,
              forkWriteForks s.forks hd⟩ s rfl]
          rcases List.mem_cons.1 hx with hx1 | hx1
          · subst hx1
            rw [tdOf_cons_eq]
            omega
          · have hne : x.hash ≠ hd.hash := hfresh x hx1
            rw [tdOf_cons_ne _ _ _ _ _ _ _ hne,
              tdOf_tds_eq ⟨hd :: s.headers, s.tds, s.head,
                forkWriteForks s.forks hd⟩ s rfl]
            exact hi.2.2 x hx1

theorem inv_applyOp (st : Option Store) (op : Op)
    (h : ∀ s, st = some s → Inv s) :
    ∀ s, applyOp st op = some s → Inv s := by
  cases op with
  | genesis g =>
    cases st with
    | some s0 =>
      intro s hs
      simp only [applyOp, writeGenesis, Option.some.injEq] at hs
      exact hs ▸ h s0 rfl
    | none =>
      intro s hs
      simp only [applyOp, writeGenesis, Option.some.injEq] at hs
      subst hs
      refine ⟨by simp, by simp, ?_⟩
      intro x hx
      simp at hx
      subst hx
      exact le_refl _
  | header hd =>
    cases st with
    | none =>
      intro s hs
      simp [applyOp] at hs
    | some s0 =>
      intro s hs
      simp only [applyOp, Option.some.injEq] at hs
      subst hs
      exact inv_writeHeader hd s0 (h s0 rfl)

theorem inv_applyOps_aux (ops : List Op) :
    ∀ st : Option Store, (∀ s, st = some s → Inv s) →
      ∀ s, ops.foldl applyOp st = some s → Inv s := by
  induction ops with
  | nil =>
    intro st h s hs
    exact h s hs
  | cons op rest ih =>
    intro st h s hs
    exact ih (applyOp st op) (inv_applyOp st op h) s hs

theorem inv_applyOps (ops : List Op) (s : Store) (h : applyOps ops = some s) :
    Inv s :=
  inv_applyOps_aux ops none (by intro s hs; cases hs) s h

end Blockchain

namespace Syncer

theorem mem_goInsertRev (x y : Peer) (l : List Peer) :
    y ∈ goInsertRev x l ↔ y = x ∨ y ∈ l := by
  induction l with
  | nil => simp [goInsertRev]
  | cons p rest ih =>
    unfold goInsertRev
    by_cases h : peersLess x p
    · rw [if_pos h]
      simp only [List.mem_cons, ih]
      tauto
    · rw [if_neg h]
      simp only [List.mem_cons]

theorem mem_goSortAux (l : List Peer) :
    ∀ acc y, y ∈ goSortAux acc l ↔ y ∈ acc ∨ y ∈ l := by
  induction l with
  | nil =>
    intro acc y
    simp [goSortAux]
  | cons p rest ih =>
    intro acc y
    unfold goSortAux
    rw [ih]
    rw [mem_goInsertRev]
    simp only [List.mem_cons]
    tauto

theorem mem_goSort (l : List Peer) (y : Peer) : y ∈ goSort l ↔ y ∈ l := by
  unfold goSort
  rw [mem_goSortAux]
  simp

theorem head?_mem {α : Type} {l : List α} {a : α} (h : l.head? = some a) :
    a ∈ l := by
  cases l with
  | nil => simp at h
  | cons x xs =>
    simp at h
    simp [h]

end Syncer

/-- C1 (counterexample): the converse half of the round-trip law fails
on the code: the byte sequence `0x81 0x05` is accepted by the decoder's
`Bytes` (yielding the payload `0x05`), but re-encoding the decoded
value produces `0x05`, not the original input, since the canonical
encoding of the single byte `0x05` is the byte itself. -/
theorem C1_counterexample :
    RLP.bytesF (RLP.newRLP [0x81, 0x05]) =
      .ok [0x05] ⟨[0x81, 0x05], 2, none, []⟩ ∧
    RLP.encodeVal (.bytes [0x05]) = .ok [0x05] ∧
    [0x05] ≠ [0x81, 0x05] :=
  ⟨rfl, rfl, by decide⟩

/-- C1 (amended): the forward half of the round-trip law holds: for
every well-formed value of the recognized universe (unsigned integers
below 2^64, non-negative arbitrary-precision integers, byte strings,
strings, and lists of these), decoding the byte sequence produced by
`EncodeToRLP`, driving the reader by the value's shape as the
repository's RLP test does, yields the value again with the whole
input consumed; the converse direction is refuted separately. -/
theorem C1_roundtrip_forward (v : RLP.Value) (e : List Nat) (hw : RLP.wfV v)
    (henc : RLP.encodeVal v = .ok e) :
    RLP.readAs (RLP.newRLP e) v = .ok v ⟨e, e.length, none, []⟩ := by
  have h := RLP.readAs_enc v e hw henc (RLP.newRLP e) [] []
    (by simp [RLP.newRLP]) (by simp [RLP.newRLP]) rfl
    (by simp [RLP.newRLP, RLP.effEnd])
  simpa [RLP.newRLP] using h

/-- C1 (witness): the round trip at the spec's concrete list scenario
`["cat", "dog"]`, whose encoding is `0xC8 0x83 'c' 'a' 't' 0x83 'd'
'o' 'g'`. -/
theorem C1_roundtrip_forward_witness :
    RLP.readAs (RLP.newRLP [0xC8, 0x83, 99, 97, 116, 0x83, 100, 111, 103])
      (RLP.Value.list [.str [99, 97, 116], .str [100, 111, 103]]) =
      .ok (RLP.Value.list [.str [99, 97, 116], .str [100, 111, 103]])
        ⟨[0xC8, 0x83, 99, 97, 116, 0x83, 100, 111, 103], 9, none, []⟩ := by
  have hw : RLP.wfV (RLP.Value.list [.str [99, 97, 116], .str [100, 111, 103]]) := by
    simp only [RLP.wfV, RLP.wfL]
    refine ⟨⟨⟨by decide, by decide⟩, ⟨by decide, by decide⟩, trivial⟩, ?_⟩
    intro ds h
    rw [show RLP.encodeChildren [.str [99, 97, 116], .str [100, 111, 103]] =
      RLP.EncRes.ok [0x83, 99, 97, 116, 0x83, 100, 111, 103] from rfl] at h
    simp only [RLP.EncRes.ok.injEq] at h
    subst h
    decide
  exact C1_roundtrip_forward _ _ hw rfl

/-- C2: after any sequence of write_genesis/write_header operations on
the spec-modelled header store, the canonical head's total difficulty
dominates every stored header's; and a newly written header whose
total difficulty exactly equals the current head's leaves the head
unchanged and lands in the fork set. -/
theorem C2_heaviest_chain_tie (ops : List Blockchain.Op)
    (s : Blockchain.Store) (hs : Blockchain.applyOps ops = some s) :
    (∀ hdr ∈ s.headers,
      Blockchain.tdOf s hdr.hash ≤ Blockchain.tdOf s s.head) ∧
    (∀ hd : Blockchain.SHeader,
      Blockchain.lookupH s hd.hash = none →
      (Blockchain.lookupH s hd.parent).isSome →
      Blockchain.tdOf s hd.parent + hd.diff = Blockchain.tdOf s s.head →
      (Blockchain.writeHeader hd s).head = s.head ∧
        hd.hash ∈ (Blockchain.writeHeader hd s).forks) := by
  refine ⟨(Blockchain.inv_applyOps ops s hs).2.2, ?_⟩
  intro hd hno hps heq
  unfold Blockchain.writeHeader
  rw [if_neg (by simp [hno])]
  rw [if_neg (by
    intro hcon
    rw [Option.isNone_iff_eq_none] at hcon
    rw [hcon] at hps
    simp at hps)]
  rw [if_neg (by omega)]
  exact ⟨rfl, Blockchain.mem_forkWriteForks s.forks hd⟩

/-- C2 (witness): on the two-header chain `0x00 ← 0x01`, writing a
challenger `0x02` with parent `0x00` and total difficulty equal to the
head's keeps head `0x01` and records `0x02` as a fork tip. -/
theorem C2_heaviest_chain_tie_witness :
    (Blockchain.writeHeader ⟨2, 0, 1, 1⟩
      ⟨[⟨1, 0, 1, 1⟩, ⟨0, 0, 0, 1⟩], [(1, 2), (0, 1)], 1, []⟩).head = 1 ∧
    (2 : Nat) ∈ (Blockchain.writeHeader ⟨2, 0, 1, 1⟩
      ⟨[⟨1, 0, 1, 1⟩, ⟨0, 0, 0, 1⟩], [(1, 2), (0, 1)], 1, []⟩).forks := by
  have h := C2_heaviest_chain_tie
    [.genesis ⟨0, 0, 0, 1⟩, .header ⟨1, 0, 1, 1⟩]
    ⟨[⟨1, 0, 1, 1⟩, ⟨0, 0, 0, 1⟩], [(1, 2), (0, 1)], 1, []⟩ (by decide)
  have h2 := h.2 ⟨2, 0, 1, 1⟩ (by decide) (by decide) (by decide)
  exact ⟨h2.1, h2.2⟩

/-- C3: the concrete reorg scenario: from genesis `(0x00, -, 0, 1)`,
writing `0x01..0x06` as given stores all seven headers (every write
succeeds), ends with canonical head `0x05`, and the fork set is
exactly `{0x06}`. -/
theorem C3_reorg_scenario :
    Blockchain.applyOps
      [.genesis ⟨0, 0, 0, 1⟩, .header ⟨1, 0, 1, 1⟩, .header ⟨2, 1, 2, 1⟩,
       .header ⟨3, 2, 3, 1⟩, .header ⟨4, 1, 2, 10⟩, .header ⟨5, 4, 3, 11⟩,
       .header ⟨6, 3, 4, 1⟩] =
      some ⟨[⟨6, 3, 4, 1⟩, ⟨5, 4, 3, 11⟩, ⟨4, 1, 2, 10⟩, ⟨3, 2, 3, 1⟩,
             ⟨2, 1, 2, 1⟩, ⟨1, 0, 1, 1⟩, ⟨0, 0, 0, 1⟩],
            [(6, 5), (5, 23), (4, 12), (3, 4), (2, 3), (1, 2), (0, 1)],
            5, [6]⟩ := by
  decide

/-- C4: decoding `0xB8 0x01 0x01` as a byte string succeeds with
payload `0x01` instead of failing with NON_CANONICAL_SIZE: `readKind`
computes `ErrSize` for a short size in long form but returns a literal
nil error, so the claim fails on the code. -/
theorem C4_long_form_short_string_accepted :
    RLP.bytesF (RLP.newRLP [0xB8, 0x01, 0x01]) =
      .ok [0x01] ⟨[0xB8, 0x01, 0x01], 3, none, []⟩ ∧
    RLP.kindF (RLP.newRLP [0xB8, 0x01, 0x01]) =
      .ok (.bytes, 1) ⟨[0xB8, 0x01, 0x01], 2, some (.bytes, 1), []⟩ :=
  ⟨rfl, rfl⟩

/-- C5: calling Kind (or Bytes) on the empty byte sequence reaches the
out-of-range access `r.data[r.pos]` — the bounds check compares
`r.pos` instead of `r.pos + 1` against the end — so the code faults
instead of returning UNEXPECTED_END, refuting the claim's safety
statement at its own distinguished input. -/
theorem C5_kind_on_empty_out_of_range :
    RLP.readByte (RLP.newRLP []) = .oob ∧
    RLP.kindF (RLP.newRLP []) = .oob ∧
    RLP.bytesF (RLP.newRLP []) = .oob :=
  ⟨rfl, rfl, rfl⟩

/-- C6: decoding `0x82 0x00 0x01` as an integer fails for the
arbitrary-precision reader `BigInt` (leading zero byte) but succeeds
with value 1 for the bounded reader `Uint`, which performs no
leading-zero check (a TODO in the code marks the missing checks), so
the claim fails on the code for `Uint`. -/
theorem C6_uint_leading_zero_accepted :
    RLP.uintF (RLP.newRLP [0x82, 0x00, 0x01]) =
      .ok 1 ⟨[0x82, 0x00, 0x01], 3, none, []⟩ ∧
    RLP.bigIntF (RLP.newRLP [0x82, 0x00, 0x01]) = .err .leadingZeroBytes :=
  ⟨rfl, rfl⟩

/-- C7 (counterexample): with candidates A = (active, failed 0,
pending 3) and B = (active, failed 1, pending 0) in that order,
`dequeuePeer` selects B although A strictly precedes B in the
ascending lexicographic order on (failure_count, pending_count), so
the selection is not the first element of the lexicographically
sorted candidate list. -/
theorem C7_counterexample :
    Syncer.dequeuePeerSelect 5 [⟨true, 0, 3⟩, ⟨true, 1, 0⟩] =
      some ⟨true, 1, 0⟩ ∧
    Syncer.lexLess ⟨true, 0, 3⟩ ⟨true, 1, 0⟩ = true ∧
    (⟨true, 0, 3⟩ : Syncer.Peer) ≠ ⟨true, 1, 0⟩ := by
  decide

/-- C7 (amended): every peer returned by the selection step is one of
the given peers, is active, and has pending strictly below
max_requests_per_peer; but the ordering used is `peers.Less`, which
falls back to pending counts even when the first peer has strictly
more failures, so the selected peer need not be the lexicographic
minimum of (failure_count, pending_count). -/
theorem C7_dequeue_guarantees (maxRequests : Int) (ps : List Syncer.Peer)
    (p : Syncer.Peer)
    (h : Syncer.dequeuePeerSelect maxRequests ps = some p) :
    p ∈ ps ∧ p.active = true ∧ p.pending < maxRequests := by
  unfold Syncer.dequeuePeerSelect at h
  have hm := Syncer.head?_mem h
  rw [Syncer.mem_goSort] at hm
  have hf := List.mem_filter.1 hm
  have hb := hf.2
  simp only [Bool.and_eq_true, decide_eq_true_eq] at hb
  exact ⟨hf.1, hb.1, by omega⟩

/-- C7 (witness): the guarantees at a singleton candidate list. -/
theorem C7_dequeue_guarantees_witness :
    (⟨true, 1, 0⟩ : Syncer.Peer) ∈ [(⟨true, 1, 0⟩ : Syncer.Peer)] ∧
    (⟨true, 1, 0⟩ : Syncer.Peer).active = true ∧
    (⟨true, 1, 0⟩ : Syncer.Peer).pending < 5 :=
  C7_dequeue_guarantees 5 [⟨true, 1, 0⟩] ⟨true, 1, 0⟩ (by decide)

/-- C8: with a peer of total difficulty 1 against a local head
difficulty of 2 (strictly lower), `AddNode` still advances the
download target to the peer's tip height 50: the comparison only logs
"skip it" and falls through to `updateChain`, so the claim fails on
the code. -/
theorem C8_addnode_advances_despite_lower_difficulty :
    Syncer.addNodeAdvance 1 2 50 none = some 50 ∧
    Syncer.addNodeAdvance 1 2 50 (some 10) = some 50 ∧
    ((1 : Int) < 2) := by
  decide

/-- C9: `encodeUint 0` is exactly `0x80`, and every non-zero unsigned
integer below 2^64 encodes as the byte-string encoding of its
minimal-length big-endian representation: `putUint32` equals the
minimal big-endian bytes `toBE`, whose value is the integer, whose
leading byte is non-zero, and whose length is minimal among all
big-endian representations; a single byte up to 0x7f encodes as
itself. -/
theorem C9_uint_minimal_big_endian :
    RLP.encodeUint 0 = [0x80] ∧
    ∀ i : Nat, 0 < i → i < 2 ^ 64 →
      RLP.encodeUint i = RLP.encodeItem (RLP.toBE i) ∧
      RLP.beVal (RLP.toBE i) = i ∧
      (RLP.toBE i).headD 0 ≠ 0 ∧
      (∀ l : List Nat, (∀ x ∈ l, x < 256) → RLP.beVal l = i →
        (RLP.toBE i).length ≤ l.length) ∧
      (i ≤ 0x7f → RLP.encodeUint i = [i]) := by
  constructor
  · rfl
  · intro i h1 h2
    have hpe : RLP.encodeUint i = RLP.encodeItem (RLP.toBE i) := by
      rw [RLP.encodeUint_ne (by omega)]
      unfold RLP.putUint32
      rw [RLP.putint_eq_toBE i h1 h2]
    refine ⟨hpe, RLP.toBE_beVal i, RLP.toBE_headD i h1, ?_, ?_⟩
    · intro l hl hv
      exact RLP.toBE_length_le i l.length (by rw [← hv]; exact RLP.beVal_lt l hl)
    · intro h7
      rw [hpe, RLP.toBE_of_lt h1 (by omega), RLP.encodeItem_single h7]

/-- C9 (witness): the non-zero clause at 300 = 0x012C, whose minimal
big-endian form is two bytes. -/
theorem C9_uint_minimal_big_endian_witness :
    RLP.encodeUint 300 = RLP.encodeItem (RLP.toBE 300) ∧
    RLP.beVal (RLP.toBE 300) = 300 :=
  ⟨(C9_uint_minimal_big_endian.2 300 (by norm_num) (by norm_num)).1,
   (C9_uint_minimal_big_endian.2 300 (by norm_num) (by norm_num)).2.1⟩

/-- C10: a negative arbitrary-precision integer at top level returns
the INVALID_VALUE error, but nested inside a list the error is not
propagated: `encodeList` calls `panic(err)` on a child error, so the
encoder crashes instead of returning the error, and the claim fails on
the code for nested values. -/
theorem C10_nested_negative_bigint_panics :
    RLP.encodeVal (.bigInt (-1)) = .err ∧
    RLP.encodeVal (.list [.bigInt (-1)]) = .panicked ∧
    RLP.encodeVal (.list [.uint 1, .bigInt (-1)]) = .panicked :=
  ⟨rfl, rfl, rfl⟩
